import Mathlib

/-!
Shallow embedding of `src/triples/bits.rs` from cait-sith: the bit-vector /
bit-matrix algebra and the PRG-driven expand-and-transpose routine used by the
OT-extension protocol.  Machine integers (`u64`, `u8`) are modelled as `Nat`
with explicit `% 2 ^ 64` (resp. `% 256`) where the machine width matters.  The
external PRG (`ck_meow::Meow`) is modelled as a transcript of absorbed data
together with an abstract deterministic squeeze function.
-/

set_option maxRecDepth 100000

/-- Modelled from the spec: the constant `SECURITY_PARAMETER` lives in
`crate::constants`, which is not part of the provided source; the spec fixes
the security parameter to 128 bits ("e.g. 128", and the §8 scenario uses
`security_parameter = 128`, matching the upstream crate). -/
def SECURITY_PARAMETER : Nat := 128

/-- `SEC_PARAM_64`: number of 64-bit words needed to store the security
parameter many bits, `(SECURITY_PARAMETER + 64 - 1) / 64`. -/
def SEC_PARAM_64 : Nat := (SECURITY_PARAMETER + 64 - 1) / 64

/-- `SEC_PARAM_8`: number of bytes needed, `(SECURITY_PARAMETER + 8 - 1) / 8`. -/
def SEC_PARAM_8 : Nat := (SECURITY_PARAMETER + 8 - 1) / 8

/-- `u64::to_le_bytes`: the eight little-endian base-256 digits of a word. -/
def u64ToLeBytes (u : Nat) : List Nat :=
  (List.range 8).map fun k => u / 256 ^ k % 256

/-- `u64::from_le_bytes`: rebuild a word from little-endian bytes. -/
def u64FromLeBytes (bs : List Nat) : Nat :=
  bs.foldr (fun b acc => acc * 256 + b) 0

/-- `slice::chunks_exact k`: the maximal list of consecutive length-`k` chunks,
dropping any shorter remainder. -/
def chunksExact (k : Nat) (l : List Nat) : List (List Nat) :=
  if _h : 0 < k ∧ k ≤ l.length then
    l.take k :: chunksExact k (l.drop k)
  else
    []
termination_by l.length
decreasing_by
  simp only [List.length_drop]
  omega

/-- Writes the elements of the second list over the front of the first list,
leaving the tail of the first list unchanged: the semantics of Rust's
`for (o, u) in out.iter_mut().zip(us) { *o = u; }`. -/
def overwriteFront : List Nat → List Nat → List Nat
  | [], _ => []
  | os, [] => os
  | _ :: os, u :: us => u :: overwriteFront os us

/-- Zips two lists with `f`, keeping the unmatched tail of the FIRST list
unchanged: the semantics of `self.iter_mut().zip(other.iter())` updates. -/
def zipMutWith {α β : Type} (f : α → β → α) : List α → List β → List α
  | [], _ => []
  | xs, [] => xs
  | x :: xs, y :: ys => f x y :: zipMutWith f xs ys

/-- `subtle`: `u64::ct_eq`, constant-time equality returning a `Choice`
(modelled as `Bool`). -/
def u64CtEq (x y : Nat) : Bool := x == y

/-- `subtle`: `u64::conditional_select(a, b, choice)`, computed as in the
subtle crate via a branchless mask: `a ^ (mask & (a ^ b))` with
`mask = -(choice as u64)`. -/
def u64ConditionalSelect (a b : Nat) (choice : Bool) : Nat :=
  a ^^^ ((if choice then 2 ^ 64 - 1 else 0) &&& (a ^^^ b))

/-- `BitVector`: a vector of `SEC_PARAM_64` words of 64 bits
(`[u64; SEC_PARAM_64]` in the source). -/
structure BitVector where
  words : List Nat
deriving DecidableEq, Repr

/-- Well-formedness of the embedding: the list really is a `[u64; SEC_PARAM_64]`,
i.e. it has exactly `SEC_PARAM_64` entries, each below `2 ^ 64`. -/
def BitVector.wf (v : BitVector) : Prop :=
  v.words.length = SEC_PARAM_64 ∧ ∀ w ∈ v.words, w < 2 ^ 64

instance (v : BitVector) : Decidable v.wf := by
  unfold BitVector.wf; infer_instance

/-- `BitVector::zero`. -/
def BitVector.zero : BitVector :=
  ⟨List.replicate SEC_PARAM_64 0⟩

/-- `BitVector::random(rng)`: fills each word with the next `u64` drawn from
the generator; the generator is modelled as the stream of its outputs, reduced
mod `2 ^ 64` because `next_u64` returns a `u64`. -/
def BitVector.random (rng : Nat → Nat) : BitVector :=
  ⟨(List.range SEC_PARAM_64).map fun i => rng i % 2 ^ 64⟩

/-- `BitVector::from_bytes`: split the `SEC_PARAM_8`-byte buffer into exact
8-byte chunks, decode each chunk little-endian, and write the resulting words
over a zeroed word array. -/
def BitVector.from_bytes (bytes : List Nat) : BitVector :=
  ⟨overwriteFront (List.replicate SEC_PARAM_64 0)
    ((chunksExact 8 bytes).map u64FromLeBytes)⟩

/-- `BitVector::bits`: for each word `u`, for each `j` in `0..64`, yield the
`Choice` `((u >> j) & 1).ct_eq(&0)`. -/
def BitVector.bits (v : BitVector) : List Bool :=
  v.words.flatMap fun u =>
    (List.range 64).map fun j => u64CtEq ((u >>> j) &&& 1) 0

/-- `BitVector::xor_mut` / `xor`: word-wise xor via the mutable-zip pattern. -/
def BitVector.xor (a b : BitVector) : BitVector :=
  ⟨zipMutWith (fun x y => x ^^^ y) a.words b.words⟩

/-- `BitVector::and_mut` / `and`: word-wise and via the mutable-zip pattern. -/
def BitVector.and (a b : BitVector) : BitVector :=
  ⟨zipMutWith (fun x y => x &&& y) a.words b.words⟩

/-- Helper for `ConditionallySelectable for BitVector`: zip a zeroed output
with both inputs, selecting word-wise; unmatched output entries stay zero. -/
def selectZip (c : Bool) : List Nat → List Nat → List Nat → List Nat
  | o :: os, x :: xs, y :: ys =>
    (fun _ => u64ConditionalSelect x y c) o :: selectZip c os xs ys
  | os, _, _ => os

/-- `<BitVector as ConditionallySelectable>::conditional_select`. -/
def BitVector.conditional_select (a b : BitVector) (choice : Bool) : BitVector :=
  ⟨selectZip choice (List.replicate SEC_PARAM_64 0) a.words b.words⟩

/-- `BitMatrix`: a vector of `BitVector` rows (`Vec<BitVector>`). -/
structure BitMatrix where
  rows : List BitVector
deriving DecidableEq, Repr

/-- `BitMatrix::from_rows`. -/
def BitMatrix.from_rows (l : List BitVector) : BitMatrix := ⟨l⟩

/-- `BitMatrix::height`. -/
def BitMatrix.height (m : BitMatrix) : Nat := m.rows.length

/-- `BitMatrix::xor_mut` / `xor`: row-wise xor via the mutable-zip pattern
(rows of `self` beyond `other`'s height are left unchanged). -/
def BitMatrix.xor (a b : BitMatrix) : BitMatrix :=
  ⟨zipMutWith BitVector.xor a.rows b.rows⟩

/-- `BitMatrix::and_vec_mut` / `and_vec`: broadcast-and a vector over rows. -/
def BitMatrix.and_vec (m : BitMatrix) (v : BitVector) : BitMatrix :=
  ⟨m.rows.map fun r => r.and v⟩

/-- `SquareBitMatrix`: a `BitMatrix` wrapper whose construction enforces
height `SECURITY_PARAMETER`. -/
structure SquareBitMatrix where
  matrix : BitMatrix
deriving DecidableEq, Repr

/-- Well-formedness of a validly constructed `SquareBitMatrix`: exactly
`SECURITY_PARAMETER` rows, every row a well-formed `BitVector`. -/
def SquareBitMatrix.wf (s : SquareBitMatrix) : Prop :=
  s.matrix.rows.length = SECURITY_PARAMETER ∧ ∀ r ∈ s.matrix.rows, r.wf

instance (s : SquareBitMatrix) : Decidable s.wf := by
  unfold SquareBitMatrix.wf; infer_instance

/-- `TryFrom<BitMatrix> for SquareBitMatrix`: fail (with the unit error) when
the height differs from `SECURITY_PARAMETER`, otherwise wrap unchanged. -/
def SquareBitMatrix.try_from (matrix : BitMatrix) : Except Unit SquareBitMatrix :=
  if matrix.rows.length ≠ SECURITY_PARAMETER then
    Except.error ()
  else
    Except.ok ⟨matrix⟩

/-- UTF-8 bytes of a string constant, as plain naturals. -/
def strBytes (s : String) : List Nat :=
  s.toUTF8.toList.map fun b => b.toNat

/-- The context string for the PRG. -/
def PRG_CTX : List Nat := strBytes "cait-sith v0.1.0 correlated OT PRG"

/-- One absorb operation recorded in a Meow transcript. -/
inductive MeowOp where
  | metaAd (data : List Nat) (more : Bool)
  | ad (data : List Nat) (more : Bool)
deriving DecidableEq, Repr

/-- `ck_meow::Meow`, modelled as its initialization context plus the ordered
transcript of absorb operations; cloning is plain value copying. -/
structure Meow where
  ctx : List Nat
  ops : List MeowOp
deriving DecidableEq, Repr

/-- `Meow::new`. -/
def Meow.new (ctx : List Nat) : Meow := ⟨ctx, []⟩

/-- `Meow::meta_ad`. -/
def Meow.meta_ad (m : Meow) (data : List Nat) (more : Bool) : Meow :=
  ⟨m.ctx, m.ops ++ [MeowOp.metaAd data more]⟩

/-- `Meow::ad`. -/
def Meow.ad (m : Meow) (data : List Nat) (more : Bool) : Meow :=
  ⟨m.ctx, m.ops ++ [MeowOp.ad data more]⟩

/-- Absorb each word of a row as continued associated data, as in
`for u in row.0 { meow.ad(&u.to_le_bytes(), true); }`. -/
def Meow.adWords (m : Meow) (ws : List Nat) : Meow :=
  ws.foldl (fun acc u => acc.ad (u64ToLeBytes u) true) m

/-- `Meow::prf`: squeeze `n` pseudorandom bytes.  The squeeze itself is the
abstract deterministic function `prg` of the absorbed state, reduced mod 256
because the output buffer holds bytes. -/
def Meow.prf (prg : Meow → Nat → Nat) (m : Meow) (n : Nat) : List Nat :=
  (List.range n).map fun i => prg m i % 256

/-- The per-row expansion inside `expand_transpose`: clone the session-bound
context, absorb the "row" domain label, the empty data block, then the row's
words in little-endian bytes, and squeeze `row8` bytes. -/
def expandRow (prg : Meow → Nat → Nat) (sid : List Nat) (row8 : Nat)
    (row : BitVector) : List Nat :=
  Meow.prf prg
    (Meow.adWords
      (Meow.ad (Meow.meta_ad
        (Meow.ad (Meow.meta_ad (Meow.new PRG_CTX) (strBytes "sid") false)
          sid false)
        (strBytes "row") false) [] false)
      row.words)
    row8

/-- The bit extracted from the expanded bytes for output row `i`:
`(expanded[i / 8] >> (i % 8)) & 1`. -/
def expandedBit (expanded : List Nat) (i : Nat) : Nat :=
  (expanded.getD (i / 8) 0 >>> (i % 8)) &&& 1

/-- The single store of the scatter loop body:
`out.0[i].0[j / 64] |= bit << (j % 64)` applied to row `i`. -/
def scatterWrite (expanded : List Nat) (j i : Nat) (r : BitVector) : BitVector :=
  ⟨r.words.set (j / 64)
    (r.words.getD (j / 64) 0 ||| (expandedBit expanded i <<< (j % 64)))⟩

/-- The inner loop `for i in 0..rows { ... }` of `expand_transpose`, scattering
the expansion of input row `j` into column `j` of every output row. -/
def scatterCol (expanded : List Nat) (j rows : Nat) (out : List BitVector) :
    List BitVector :=
  (List.range rows).foldl
    (fun acc i => acc.set i (scatterWrite expanded j i (acc.getD i BitVector.zero)))
    out

/-- `SquareBitMatrix::expand_transpose(sid, rows)`: expand each of the
`SECURITY_PARAMETER` input rows to `(rows + 7) / 8` pseudorandom bytes and
scatter bit `i` of expansion `j` into bit `j` of output row `i`. -/
def SquareBitMatrix.expand_transpose (prg : Meow → Nat → Nat)
    (s : SquareBitMatrix) (sid : List Nat) (rows : Nat) : BitMatrix :=
  ⟨(s.matrix.rows.enum).foldl
    (fun out p => scatterCol (expandRow prg sid ((rows + 7) / 8) p.2) p.1 rows out)
    (List.replicate rows BitVector.zero)⟩

/-- Checked variant of the scatter store: every slice index the source
performs (`expanded[i / 8]`, `out.0[i].0[j / 64]`) is looked up fallibly, so
an out-of-bounds access (a Rust panic) surfaces as `none`. -/
def scatterWriteChecked (expanded : List Nat) (j i : Nat) (r : BitVector) :
    Option BitVector :=
  match expanded.get? (i / 8), r.words.get? (j / 64) with
  | some ebyte, some w =>
    some ⟨r.words.set (j / 64) (w ||| (((ebyte >>> (i % 8)) &&& 1) <<< (j % 64)))⟩
  | _, _ => none

/-- Checked variant of the inner scatter loop, with `out.0[i]` also looked up
fallibly. -/
def scatterColChecked (expanded : List Nat) (j rows : Nat)
    (out : List BitVector) : Option (List BitVector) :=
  (List.range rows).foldlM
    (fun acc i => do
      let r ← acc.get? i
      let r2 ← scatterWriteChecked expanded j i r
      pure (acc.set i r2))
    out

/-- Checked variant of `expand_transpose`: identical computation, but every
slice index is checked and a panic surfaces as `none`. -/
def expand_transpose_checked (prg : Meow → Nat → Nat) (s : SquareBitMatrix)
    (sid : List Nat) (rows : Nat) : Option BitMatrix :=
  ((s.matrix.rows.enum).foldlM
    (fun out p =>
      scatterColChecked (expandRow prg sid ((rows + 7) / 8) p.2) p.1 rows out)
    (List.replicate rows BitVector.zero)).map BitMatrix.mk

/-! ### List helpers -/

theorem getD_set_self {α : Type} (l : List α) (i : Nat) (a d : α)
    (h : i < l.length) : (l.set i a).getD i d = a := by
  rw [List.getD_eq_getElem?_getD, List.getElem?_set_self h]
  rfl

theorem getD_set_ne {α : Type} (l : List α) {i j : Nat} (a d : α) (h : i ≠ j) :
    (l.set i a).getD j d = l.getD j d := by
  rw [List.getD_eq_getElem?_getD, List.getElem?_set_ne h,
    ← List.getD_eq_getElem?_getD]

theorem getD_replicate {α : Type} (n i : Nat) (a d : α) :
    (List.replicate n a).getD i d = if i < n then a else d := by
  rw [List.getD_eq_getElem?_getD, List.getElem?_replicate]
  split <;> rfl

theorem zipMutWith_length {α β : Type} (f : α → β → α) :
    ∀ (xs : List α) (ys : List β), (zipMutWith f xs ys).length = xs.length
  | [], _ => by simp [zipMutWith]
  | _ :: _, [] => by simp [zipMutWith]
  | x :: xs, y :: ys => by
    simp [zipMutWith, zipMutWith_length f xs ys]

theorem zipMutWith_getD {α β : Type} (f : α → β → α) (d : α) (e : β) :
    ∀ (xs : List α) (ys : List β) (i : Nat),
      (zipMutWith f xs ys).getD i d =
        if i < min xs.length ys.length then f (xs.getD i d) (ys.getD i e)
        else xs.getD i d
  | [], ys, i => by simp [zipMutWith]
  | _ :: _, [], i => by simp [zipMutWith]
  | x :: xs, y :: ys, 0 => by simp [zipMutWith]
  | x :: xs, y :: ys, i + 1 => by
    simp only [zipMutWith, List.getD_cons_succ, List.length_cons,
      zipMutWith_getD f d e xs ys i, Nat.succ_min_succ, Nat.add_lt_add_iff_right,
      Nat.succ_eq_add_one]

theorem overwriteFront_length :
    ∀ (os us : List Nat), (overwriteFront os us).length = os.length
  | [], _ => by simp [overwriteFront]
  | _ :: _, [] => by simp [overwriteFront]
  | o :: os, u :: us => by
    simp [overwriteFront, overwriteFront_length os us]

/-! ### Word-level lemmas for the subtle primitives -/

theorem u64ConditionalSelect_false (a b : Nat) :
    u64ConditionalSelect a b false = a := by
  simp [u64ConditionalSelect]

theorem u64ConditionalSelect_true (a b : Nat) (ha : a < 2 ^ 64)
    (hb : b < 2 ^ 64) : u64ConditionalSelect a b true = b := by
  have hxor : a ^^^ b < 2 ^ 64 := Nat.xor_lt_two_pow ha hb
  unfold u64ConditionalSelect
  rw [if_pos rfl, Nat.and_comm, Nat.and_pow_two_sub_one_of_lt_two_pow hxor,
    ← Nat.xor_assoc, Nat.xor_self, Nat.zero_xor]

theorem selectZip_false :
    ∀ (os xs ys : List Nat), os.length = xs.length → xs.length = ys.length →
      selectZip false os xs ys = xs
  | [], [], [], _, _ => by simp [selectZip]
  | o :: os, x :: xs, y :: ys, h1, h2 => by
    simp only [List.length_cons, Nat.add_right_cancel_iff] at h1 h2
    simp [selectZip, u64ConditionalSelect_false, selectZip_false os xs ys h1 h2]

theorem selectZip_true :
    ∀ (os xs ys : List Nat), os.length = xs.length → xs.length = ys.length →
      (∀ x ∈ xs, x < 2 ^ 64) → (∀ y ∈ ys, y < 2 ^ 64) →
      selectZip true os xs ys = ys
  | [], [], [], _, _, _, _ => by simp [selectZip]
  | o :: os, x :: xs, y :: ys, h1, h2, hx, hy => by
    simp only [List.length_cons, Nat.add_right_cancel_iff] at h1 h2
    simp [selectZip,
      u64ConditionalSelect_true x y (hx x (by simp)) (hy y (by simp)),
      selectZip_true os xs ys h1 h2
        (fun z hz => hx z (by simp [hz]))
        (fun z hz => hy z (by simp [hz]))]

theorem selectZip_length (c : Bool) :
    ∀ (os xs ys : List Nat), (selectZip c os xs ys).length = os.length
  | [], _, _ => by simp [selectZip]
  | o :: os, [], _ => by simp [selectZip]
  | o :: os, _ :: _, [] => by simp [selectZip]
  | o :: os, x :: xs, y :: ys => by
    simp [selectZip, selectZip_length c os xs ys]

/-! ### Little-endian byte encoding -/

theorem u64ToLeBytes_length (u : Nat) : (u64ToLeBytes u).length = 8 := by
  simp [u64ToLeBytes]

theorem u64ToLeBytes_lt (u : Nat) : ∀ b ∈ u64ToLeBytes u, b < 256 := by
  intro b hb
  simp only [u64ToLeBytes, List.mem_map, List.mem_range] at hb
  obtain ⟨k, -, rfl⟩ := hb
  exact Nat.mod_lt _ (by norm_num)

theorem foldr_le_digits (w : Nat) :
    ∀ (k c : Nat),
      (((List.range k).map fun t => w / 256 ^ t % 256).foldr
        (fun b acc => acc * 256 + b) c) = w % 256 ^ k + c * 256 ^ k := by
  intro k
  induction k with
  | zero => intro c; simp [Nat.mod_one]
  | succ k ih =>
    intro c
    rw [List.range_succ, List.map_append, List.foldr_append]
    simp only [List.map_cons, List.map_nil, List.foldr_cons, List.foldr_nil]
    rw [ih (c * 256 + w / 256 ^ k % 256), pow_succ, Nat.mod_mul]
    ring

theorem u64FromLeBytes_u64ToLeBytes (w : Nat) (hw : w < 2 ^ 64) :
    u64FromLeBytes (u64ToLeBytes w) = w := by
  have h256 : (256 : Nat) ^ 8 = 2 ^ 64 := by norm_num
  unfold u64FromLeBytes u64ToLeBytes
  rw [foldr_le_digits w 8 0, Nat.zero_mul, Nat.add_zero, h256,
    Nat.mod_eq_of_lt hw]

theorem u64FromLeBytes_lt :
    ∀ (bs : List Nat), (∀ b ∈ bs, b < 256) →
      u64FromLeBytes bs < 256 ^ bs.length
  | [], _ => by simp [u64FromLeBytes]
  | b :: bs, h => by
    have hb : b < 256 := h b (by simp)
    have ih := u64FromLeBytes_lt bs (fun x hx => h x (by simp [hx]))
    simp only [u64FromLeBytes, List.foldr_cons] at ih ⊢
    have hstep : bs.foldr (fun b acc => acc * 256 + b) 0 + 1 ≤ 256 ^ bs.length :=
      Nat.succ_le_of_lt ih
    calc bs.foldr (fun b acc => acc * 256 + b) 0 * 256 + b
        < (bs.foldr (fun b acc => acc * 256 + b) 0 + 1) * 256 := by omega
      _ ≤ 256 ^ bs.length * 256 := Nat.mul_le_mul_right 256 hstep
      _ = 256 ^ (b :: bs).length := by rw [List.length_cons, pow_succ]

/-! ### chunksExact lemmas -/

theorem chunksExact_empty (k : Nat) : chunksExact k [] = [] := by
  rw [chunksExact]
  split
  · next h => simp at h; omega
  · rfl

theorem chunksExact_append8 (c l : List Nat) (hc : c.length = 8) :
    chunksExact 8 (c ++ l) = c :: chunksExact 8 l := by
  rw [chunksExact, dif_pos ⟨by norm_num, by simp [List.length_append, hc]⟩,
    List.take_left' hc, List.drop_left' hc]

theorem chunksExact_mem_bounded (n : Nat) :
    ∀ (l : List Nat), l.length ≤ n → ∀ c ∈ chunksExact 8 l,
      c.length = 8 ∧ ∀ b ∈ c, b ∈ l := by
  induction n with
  | zero =>
    intro l hl c hc
    rw [chunksExact] at hc
    split at hc
    · next h => omega
    · exact absurd hc (List.not_mem_nil c)
  | succ n ih =>
    intro l hl c hc
    rw [chunksExact] at hc
    split at hc
    · next h =>
      rcases List.mem_cons.mp hc with rfl | hc2
      · exact ⟨by rw [List.length_take]; omega,
          fun b hb => List.take_subset 8 l hb⟩
      · have hdrop : (l.drop 8).length ≤ n := by
          rw [List.length_drop]; omega
        obtain ⟨hc8, hcm⟩ := ih (l.drop 8) hdrop c hc2
        exact ⟨hc8, fun b hb => List.drop_subset 8 l (hcm b hb)⟩
    · exact absurd hc (List.not_mem_nil c)

theorem chunksExact_mem (l : List Nat) (c : List Nat)
    (hc : c ∈ chunksExact 8 l) : c.length = 8 ∧ ∀ b ∈ c, b ∈ l :=
  chunksExact_mem_bounded l.length l le_rfl c hc

theorem chunksExact_count_bounded (n : Nat) :
    ∀ (l : List Nat), l.length ≤ n →
      (chunksExact 8 l).length = l.length / 8 := by
  induction n with
  | zero =>
    intro l hl
    rw [chunksExact]
    split
    · next h => omega
    · simp; omega
  | succ n ih =>
    intro l hl
    rw [chunksExact]
    split
    · next h =>
      have hdrop : (l.drop 8).length ≤ n := by
        rw [List.length_drop]; omega
      rw [List.length_cons, ih (l.drop 8) hdrop, List.length_drop]
      omega
    · next h => simp; omega

theorem chunksExact_count (l : List Nat) :
    (chunksExact 8 l).length = l.length / 8 :=
  chunksExact_count_bounded l.length l le_rfl

/-! ### Well-formedness of the vector operations -/

theorem overwriteFront_mem :
    ∀ (os us : List Nat) (x : Nat), x ∈ overwriteFront os us → x ∈ os ∨ x ∈ us
  | [], us, x, hx => by simp [overwriteFront] at hx
  | o :: os, [], x, hx => Or.inl (by simpa [overwriteFront] using hx)
  | o :: os, u :: us, x, hx => by
    simp only [overwriteFront, List.mem_cons] at hx
    rcases hx with rfl | hx
    · exact Or.inr (by simp)
    · rcases overwriteFront_mem os us x hx with h | h
      · exact Or.inl (by simp [h])
      · exact Or.inr (by simp [h])

theorem zipMutWith_mem {α β : Type} (f : α → β → α) (P : α → Prop) :
    ∀ (xs : List α) (ys : List β), (∀ x ∈ xs, P x) →
      (∀ x y, x ∈ xs → y ∈ ys → P (f x y)) →
      ∀ z ∈ zipMutWith f xs ys, P z
  | [], ys, hx, hf, z, hz => by simp [zipMutWith] at hz
  | x :: xs, [], hx, hf, z, hz => hx z (by simpa [zipMutWith] using hz)
  | x :: xs, y :: ys, hx, hf, z, hz => by
    simp only [zipMutWith, List.mem_cons] at hz
    rcases hz with rfl | hz
    · exact hf x y (by simp) (by simp)
    · exact zipMutWith_mem f P xs ys (fun a ha => hx a (by simp [ha]))
        (fun a b ha hb => hf a b (by simp [ha]) (by simp [hb])) z hz

theorem selectZip_mem (P : Nat → Prop) :
    ∀ (c : Bool) (os xs ys : List Nat), (∀ o ∈ os, P o) →
      (∀ x y, x ∈ xs → y ∈ ys → P (u64ConditionalSelect x y c)) →
      ∀ z ∈ selectZip c os xs ys, P z
  | c, [], xs, ys, hP, hf, z, hz => by
    rw [show selectZip c [] xs ys = [] from by cases xs <;> cases ys <;> rfl] at hz
    exact absurd hz (List.not_mem_nil z)
  | c, o :: os, [], ys, hP, hf, z, hz =>
    hP z (by rwa [show selectZip c (o :: os) [] ys = o :: os from by
      cases ys <;> rfl] at hz)
  | c, o :: os, x :: xs, [], hP, hf, z, hz =>
    hP z (by rwa [show selectZip c (o :: os) (x :: xs) [] = o :: os from rfl] at hz)
  | c, o :: os, x :: xs, y :: ys, hP, hf, z, hz => by
    simp only [selectZip, List.mem_cons] at hz
    rcases hz with rfl | hz
    · exact hf x y (by simp) (by simp)
    · exact selectZip_mem P c os xs ys (fun a ha => hP a (by simp [ha]))
        (fun a b ha hb => hf a b (by simp [ha]) (by simp [hb])) z hz

theorem u64ConditionalSelect_lt (a b : Nat) (c : Bool) (ha : a < 2 ^ 64)
    (hb : b < 2 ^ 64) : u64ConditionalSelect a b c < 2 ^ 64 := by
  cases c
  · rwa [u64ConditionalSelect_false]
  · rwa [u64ConditionalSelect_true a b ha hb]

theorem zero_wf : BitVector.zero.wf := by
  constructor
  · simp [BitVector.zero]
  · intro w hw
    rw [List.eq_of_mem_replicate hw]
    positivity

theorem random_wf (rng : Nat → Nat) : (BitVector.random rng).wf := by
  constructor
  · simp [BitVector.random]
  · intro w hw
    simp only [BitVector.random, List.mem_map] at hw
    obtain ⟨i, -, rfl⟩ := hw
    exact Nat.mod_lt _ (by positivity)

theorem from_bytes_wf (bytes : List Nat) (_hlen : bytes.length = SEC_PARAM_8)
    (hb : ∀ x ∈ bytes, x < 256) : (BitVector.from_bytes bytes).wf := by
  constructor
  · simp [BitVector.from_bytes, overwriteFront_length]
  · intro w hw
    simp only [BitVector.from_bytes] at hw
    rcases overwriteFront_mem _ _ w hw with h | h
    · rw [List.eq_of_mem_replicate h]
      positivity
    · simp only [List.mem_map] at h
      obtain ⟨c, hc, rfl⟩ := h
      obtain ⟨hc8, hcm⟩ := chunksExact_mem bytes c hc
      have := u64FromLeBytes_lt c (fun x hx => hb x (hcm x hx))
      rw [hc8] at this
      calc u64FromLeBytes c < 256 ^ 8 := this
        _ = 2 ^ 64 := by norm_num

theorem xor_wf (a b : BitVector) (ha : a.wf) (hb : b.wf) : (a.xor b).wf := by
  constructor
  · rw [BitVector.xor]
    show (zipMutWith _ a.words b.words).length = SEC_PARAM_64
    rw [zipMutWith_length, ha.1]
  · intro w hw
    exact zipMutWith_mem _ (fun z => z < 2 ^ 64) a.words b.words ha.2
      (fun x y hx hy => Nat.xor_lt_two_pow (ha.2 x hx) (hb.2 y hy)) w hw

theorem and_wf (a b : BitVector) (ha : a.wf) (_hb : b.wf) : (a.and b).wf := by
  constructor
  · rw [BitVector.and]
    show (zipMutWith _ a.words b.words).length = SEC_PARAM_64
    rw [zipMutWith_length, ha.1]
  · intro w hw
    exact zipMutWith_mem _ (fun z => z < 2 ^ 64) a.words b.words ha.2
      (fun x y hx hy => Nat.lt_of_le_of_lt Nat.and_le_left (ha.2 x hx)) w hw

theorem conditional_select_wf (a b : BitVector) (c : Bool) (ha : a.wf)
    (hb : b.wf) : (BitVector.conditional_select a b c).wf := by
  constructor
  · rw [BitVector.conditional_select]
    show (selectZip _ _ _ _).length = SEC_PARAM_64
    rw [selectZip_length, List.length_replicate]
  · intro w hw
    refine selectZip_mem (fun z => z < 2 ^ 64) c _ a.words b.words ?_ ?_ w hw
    · intro o ho
      rw [List.eq_of_mem_replicate ho]
      positivity
    · intro x y hx hy
      exact u64ConditionalSelect_lt x y c (ha.2 x hx) (hb.2 y hy)

/-! ### Packed value and absence of high bits -/

/-- The natural number stored by a vector: its words read as one
little-endian base-`2 ^ 64` value, so storage bit `k` of the vector is bit
`k % 64` of word `k / 64`. -/
def BitVector.storedVal (v : BitVector) : Nat :=
  v.words.foldr (fun w acc => acc * 2 ^ 64 + w) 0

/-- "No extra high bits beyond `security_parameter` are ever set": every
storage bit at position `SECURITY_PARAMETER` or above is zero. -/
def BitVector.noHighBits (v : BitVector) : Prop :=
  ∀ k, SECURITY_PARAMETER ≤ k → Nat.testBit v.storedVal k = false

theorem wf_storedVal_lt (v : BitVector) (h : v.wf) :
    v.storedVal < 2 ^ SECURITY_PARAMETER := by
  have h2 : v.words.length = 2 := h.1
  obtain ⟨w0, w1, hw⟩ := List.length_eq_two.mp h2
  have hw0 : w0 < 2 ^ 64 := h.2 w0 (by rw [hw]; simp)
  have hw1 : w1 < 2 ^ 64 := h.2 w1 (by rw [hw]; simp)
  show v.words.foldr (fun w acc => acc * 2 ^ 64 + w) 0 < 2 ^ SECURITY_PARAMETER
  rw [hw]
  simp only [List.foldr_cons, List.foldr_nil]
  have hsp : (2 : Nat) ^ SECURITY_PARAMETER = 2 ^ 64 * 2 ^ 64 := by
    rw [show SECURITY_PARAMETER = 128 from rfl]
    norm_num
  rw [hsp]
  calc (0 * 2 ^ 64 + w1) * 2 ^ 64 + w0 < (w1 + 1) * 2 ^ 64 := by omega
    _ ≤ 2 ^ 64 * 2 ^ 64 := Nat.mul_le_mul_right _ (Nat.succ_le_of_lt hw1)

theorem wf_noHighBits (v : BitVector) (h : v.wf) : v.noHighBits := by
  intro k hk
  apply Nat.testBit_lt_two_pow
  calc v.storedVal < 2 ^ SECURITY_PARAMETER := wf_storedVal_lt v h
    _ ≤ 2 ^ k := Nat.pow_le_pow_right (by norm_num) hk

/-! ### The scatter loops of expand_transpose -/

theorem foldl_set_range {α : Type} (g : Nat → α → α) (d : α) :
    ∀ (n : Nat) (out : List α),
      (((List.range n).foldl (fun acc i => acc.set i (g i (acc.getD i d))) out).length
          = out.length) ∧
      ∀ k, ((List.range n).foldl (fun acc i => acc.set i (g i (acc.getD i d))) out).getD k d
          = if k < n ∧ k < out.length then g k (out.getD k d) else out.getD k d := by
  intro n
  induction n with
  | zero =>
    intro out
    refine ⟨rfl, fun k => ?_⟩
    simp
  | succ n ih =>
    intro out
    obtain ⟨ihlen, ihget⟩ := ih out
    rw [List.range_succ, List.foldl_append]
    simp only [List.foldl_cons, List.foldl_nil]
    refine ⟨by rw [List.length_set, ihlen], fun k => ?_⟩
    by_cases hk : k = n
    · subst hk
      by_cases hkl : k < out.length
      · rw [getD_set_self _ _ _ _ (by rw [ihlen]; exact hkl), ihget k,
          if_neg (by omega), if_pos ⟨by omega, hkl⟩]
      · rw [List.set_eq_of_length_le (by rw [ihlen]; omega), ihget k,
          if_neg (by omega), if_neg (by omega)]
    · rw [getD_set_ne _ _ _ (fun h => hk h.symm), ihget k]
      by_cases h1 : k < n ∧ k < out.length
      · rw [if_pos h1, if_pos ⟨by omega, h1.2⟩]
      · rw [if_neg h1, if_neg (fun h2 => h1 ⟨by omega, h2.2⟩)]

theorem scatterCol_length (e : List Nat) (j rows : Nat) (out : List BitVector) :
    (scatterCol e j rows out).length = out.length :=
  (foldl_set_range (fun i r => scatterWrite e j i r) BitVector.zero rows out).1

theorem scatterCol_getD (e : List Nat) (j rows : Nat) (out : List BitVector)
    (k : Nat) :
    (scatterCol e j rows out).getD k BitVector.zero =
      if k < rows ∧ k < out.length then
        scatterWrite e j k (out.getD k BitVector.zero)
      else out.getD k BitVector.zero :=
  (foldl_set_range (fun i r => scatterWrite e j i r) BitVector.zero rows out).2 k

theorem expandedBit_le_one (e : List Nat) (i : Nat) : expandedBit e i ≤ 1 :=
  Nat.and_le_right

theorem expandedBit_shift_lt (e : List Nat) (i q : Nat) (hq : q < 64) :
    expandedBit e i <<< q < 2 ^ 64 := by
  rw [Nat.shiftLeft_eq]
  calc expandedBit e i * 2 ^ q ≤ 1 * 2 ^ q :=
        Nat.mul_le_mul_right _ (expandedBit_le_one e i)
    _ = 2 ^ q := Nat.one_mul _
    _ < 2 ^ 64 := Nat.pow_lt_pow_right (by norm_num) hq

theorem testBit_shift_bit (b q p : Nat) (hb : b ≤ 1) :
    Nat.testBit (b <<< q) p = decide (p = q ∧ b = 1) := by
  rcases Nat.le_one_iff_eq_zero_or_eq_one.mp hb with rfl | rfl
  · rw [Nat.zero_shiftLeft, Nat.zero_testBit]
    simp
  · rw [Nat.shiftLeft_eq, Nat.one_mul, Nat.testBit_two_pow]
    refine decide_eq_decide.mpr ?_
    constructor
    · intro h
      exact ⟨h.symm, rfl⟩
    · intro h
      exact h.1.symm

/-- The effect of one scatter store on one output row, stated as a bit-level
characterization: position `j % 64` of word `j / 64` picks up the expanded
bit, and every other (word, bit) position is unchanged. -/
theorem scatterWrite_spec (e : List Nat) (bitf : Nat → Prop)
    [DecidablePred bitf] (k i : Nat) (r : BitVector)
    (hk : k < SECURITY_PARAMETER)
    (hwlen : r.words.length = SEC_PARAM_64)
    (hwb : ∀ w, r.words.getD w 0 < 2 ^ 64)
    (hchar : ∀ w p, p < 64 →
      Nat.testBit (r.words.getD w 0) p = decide (64 * w + p < k ∧ bitf (64 * w + p)))
    (hbit : (expandedBit e i = 1) ↔ bitf k) :
    ((scatterWrite e k i r).words.length = SEC_PARAM_64) ∧
    (∀ w, (scatterWrite e k i r).words.getD w 0 < 2 ^ 64) ∧
    (∀ w p, p < 64 →
      Nat.testBit ((scatterWrite e k i r).words.getD w 0) p =
        decide (64 * w + p < k + 1 ∧ bitf (64 * w + p))) := by
  have hsp : SECURITY_PARAMETER = 128 := rfl
  have hs64 : SEC_PARAM_64 = 2 := rfl
  have hkdiv : k / 64 < r.words.length := by rw [hwlen, hs64]; omega
  refine ⟨?_, ?_, ?_⟩
  · rw [scatterWrite]
    show (r.words.set _ _).length = SEC_PARAM_64
    rw [List.length_set, hwlen]
  · intro w
    show (r.words.set (k / 64) _).getD w 0 < 2 ^ 64
    by_cases hw : k / 64 = w
    · subst hw
      rw [getD_set_self _ _ _ _ hkdiv]
      exact Nat.or_lt_two_pow (hwb _) (expandedBit_shift_lt e i (k % 64) (by omega))
    · rw [getD_set_ne _ _ _ hw]
      exact hwb w
  · intro w p hp
    show Nat.testBit ((r.words.set (k / 64) _).getD w 0) p = _
    by_cases hw : k / 64 = w
    · subst hw
      rw [getD_set_self _ _ _ _ hkdiv, Nat.testBit_lor,
        testBit_shift_bit _ _ _ (expandedBit_le_one e i), hchar _ p hp]
      by_cases hpq : p = k % 64
      · have hkey : 64 * (k / 64) + p = k := by omega
        rw [hkey]
        have h1 : decide (k < k ∧ bitf k) = false := by
          refine decide_eq_false ?_
          rintro ⟨hcon, -⟩
          omega
        rw [h1, Bool.false_or]
        refine decide_eq_decide.mpr ?_
        constructor
        · intro h
          exact ⟨by omega, hbit.mp h.2⟩
        · intro h
          exact ⟨hpq, hbit.mpr h.2⟩
      · have h2 : decide (p = k % 64 ∧ expandedBit e i = 1) = false :=
          decide_eq_false fun h => hpq h.1
        rw [h2, Bool.or_false]
        refine decide_eq_decide.mpr ?_
        constructor
        · intro h
          exact ⟨by omega, h.2⟩
        · intro h
          obtain ⟨h1', h2'⟩ := h
          exact ⟨by omega, h2'⟩
    · rw [getD_set_ne _ _ _ hw, hchar _ p hp]
      have hne : 64 * w + p ≠ k := by
        intro hcontra
        apply hw
        omega
      refine decide_eq_decide.mpr ?_
      constructor
      · intro h
        exact ⟨by omega, h.2⟩
      · intro h
        exact ⟨by omega, h.2⟩

/-- The inductive invariant of the outer loop of `expand_transpose`: after the
rows with index below `K` have been scattered, output row `i` holds, at storage
position `64 * w + p`, exactly bit `i` of the expansion `E j` of input row
`j = 64 * w + p` for `j < K`, and zero everywhere else. -/
def scatterInv (E : Nat → List Nat) (rows K : Nat) (out : List BitVector) : Prop :=
  out.length = rows ∧
  ∀ i, i < rows →
    ((out.getD i BitVector.zero).words.length = SEC_PARAM_64 ∧
     (∀ w, (out.getD i BitVector.zero).words.getD w 0 < 2 ^ 64) ∧
     (∀ w p, p < 64 →
        Nat.testBit ((out.getD i BitVector.zero).words.getD w 0) p =
          decide (64 * w + p < K ∧ expandedBit (E (64 * w + p)) i = 1)))

theorem expand_loop_inv (prg : Meow → Nat → Nat) (sid : List Nat) (row8 : Nat)
    (E : Nat → List Nat) (rows : Nat) :
    ∀ (rs : List BitVector) (k : Nat) (out : List BitVector),
      k + rs.length ≤ SECURITY_PARAMETER →
      (∀ idx, idx < rs.length →
        expandRow prg sid row8 (rs.getD idx BitVector.zero) = E (k + idx)) →
      scatterInv E rows k out →
      scatterInv E rows (k + rs.length)
        ((rs.enumFrom k).foldl
          (fun o p => scatterCol (expandRow prg sid row8 p.2) p.1 rows o) out)
  | [], k, out, _hk, _hE, hinv => by simpa using hinv
  | x :: rsx, k, out, hk, hE, hinv => by
    rw [List.enumFrom_cons, List.foldl_cons]
    have hx : expandRow prg sid row8 x = E k := by
      have h0 := hE 0 (by simp)
      simpa using h0
    have hklt : k < SECURITY_PARAMETER := by
      simp only [List.length_cons] at hk
      omega
    have hout1 : scatterInv E rows (k + 1)
        (scatterCol (expandRow prg sid row8 x) k rows out) := by
      obtain ⟨hlen, hrow⟩ := hinv
      constructor
      · rw [scatterCol_length, hlen]
      · intro i hi
        rw [scatterCol_getD, if_pos ⟨hi, by rw [hlen]; exact hi⟩]
        obtain ⟨h1, h2, h3⟩ := hrow i hi
        rw [hx]
        exact scatterWrite_spec (E k) (fun j => expandedBit (E j) i = 1) k i _
          hklt h1 h2 h3 Iff.rfl
    have hrec := expand_loop_inv prg sid row8 E rows rsx (k + 1)
      (scatterCol (expandRow prg sid row8 x) k rows out)
      (by simp only [List.length_cons] at hk; omega)
      (fun idx hidx => by
        have h := hE (idx + 1) (by simp only [List.length_cons]; omega)
        rw [List.getD_cons_succ] at h
        rw [h]
        congr 1
        omega)
      hout1
    have harith : k + 1 + rsx.length = k + (x :: rsx).length := by
      simp only [List.length_cons]
      omega
    rw [← harith]
    exact hrec

/-- Full characterization of `expand_transpose`: invariant instantiated at
`K = SECURITY_PARAMETER` with the per-row expansions of the input matrix. -/
theorem expand_transpose_master (prg : Meow → Nat → Nat) (s : SquareBitMatrix)
    (sid : List Nat) (rows : Nat) (hs : s.wf) :
    scatterInv (fun j => expandRow prg sid ((rows + 7) / 8)
        (s.matrix.rows.getD j BitVector.zero)) rows SECURITY_PARAMETER
      (s.expand_transpose prg sid rows).rows := by
  have hbase : scatterInv (fun j => expandRow prg sid ((rows + 7) / 8)
      (s.matrix.rows.getD j BitVector.zero)) rows 0
      (List.replicate rows BitVector.zero) := by
    constructor
    · simp
    · intro i hi
      rw [getD_replicate, if_pos hi]
      refine ⟨by simp [BitVector.zero], ?_, ?_⟩
      · intro w
        show (List.replicate SEC_PARAM_64 0).getD w 0 < 2 ^ 64
        rw [getD_replicate]
        split <;> positivity
      · intro w p _hp
        show Nat.testBit ((List.replicate SEC_PARAM_64 (0 : Nat)).getD w 0) p = _
        rw [getD_replicate]
        have hzero : (if w < SEC_PARAM_64 then (0 : Nat) else 0) = 0 := by
          split <;> rfl
        rw [hzero, Nat.zero_testBit]
        symm
        refine decide_eq_false ?_
        rintro ⟨hcon, -⟩
        omega
  have hmain := expand_loop_inv prg sid ((rows + 7) / 8)
    (fun j => expandRow prg sid ((rows + 7) / 8) (s.matrix.rows.getD j BitVector.zero))
    rows s.matrix.rows 0 (List.replicate rows BitVector.zero)
    (by rw [Nat.zero_add, hs.1])
    (fun idx _hidx => by simp)
    hbase
  unfold SquareBitMatrix.expand_transpose
  rw [show (s.matrix.rows.enum) = s.matrix.rows.enumFrom 0 from rfl]
  simpa [hs.1] using hmain

/-! ### The checked variant cannot fail -/

theorem expandRow_length (prg : Meow → Nat → Nat) (sid : List Nat)
    (row8 : Nat) (r : BitVector) : (expandRow prg sid row8 r).length = row8 := by
  simp [expandRow, Meow.prf]

theorem get?_eq_some_getD {α : Type} (l : List α) (i : Nat) (d : α)
    (h : i < l.length) : l.get? i = some (l.getD i d) := by
  rw [List.get?_eq_getElem?, List.getElem?_eq_getElem h,
    List.getD_eq_getElem?_getD, List.getElem?_eq_getElem h]
  rfl

theorem checkedStep (e : List Nat) (j n : Nat) (acc : List BitVector)
    (hn : n < acc.length) (he : n / 8 < e.length)
    (hw : (acc.getD n BitVector.zero).words.length = SEC_PARAM_64)
    (hj : j / 64 < SEC_PARAM_64) :
    (do
      let r ← acc.get? n
      let r2 ← scatterWriteChecked e j n r
      pure (acc.set n r2) : Option (List BitVector))
    = some (acc.set n (scatterWrite e j n (acc.getD n BitVector.zero))) := by
  rw [get?_eq_some_getD acc n BitVector.zero hn]
  have hbyte : e.get? (n / 8) = some (e.getD (n / 8) 0) :=
    get?_eq_some_getD e (n / 8) 0 he
  have hword : (acc.getD n BitVector.zero).words.get? (j / 64)
      = some ((acc.getD n BitVector.zero).words.getD (j / 64) 0) :=
    get?_eq_some_getD _ (j / 64) 0 (by rw [hw]; exact hj)
  simp only [Option.bind_eq_bind, Option.some_bind]
  rw [scatterWriteChecked, hbyte, hword]
  simp [scatterWrite, expandedBit]

theorem scatterColChecked_eq (e : List Nat) (j : Nat)
    (hj : j / 64 < SEC_PARAM_64) :
    ∀ (n : Nat) (out : List BitVector),
      n ≤ out.length →
      (∀ i, i < n → i / 8 < e.length) →
      (∀ i, i < out.length → (out.getD i BitVector.zero).words.length = SEC_PARAM_64) →
      (List.range n).foldlM
        (fun acc i => do
          let r ← acc.get? i
          let r2 ← scatterWriteChecked e j i r
          pure (acc.set i r2)) out
      = some ((List.range n).foldl
          (fun acc i => acc.set i (scatterWrite e j i (acc.getD i BitVector.zero))) out) := by
  intro n
  induction n with
  | zero =>
    intro out _h1 _h2 _h3
    simp
  | succ n ih =>
    intro out h1 h2 h3
    rw [List.range_succ, List.foldlM_append, List.foldl_append,
      ih out (by omega) (fun i hi => h2 i (by omega)) h3]
    simp only [List.foldlM_cons, List.foldlM_nil, Option.some_bind]
    obtain ⟨plen, pget⟩ :=
      foldl_set_range (fun i r => scatterWrite e j i r) BitVector.zero n out
    have hn : n < ((List.range n).foldl
        (fun acc i => acc.set i (scatterWrite e j i (acc.getD i BitVector.zero))) out).length := by
      rw [plen]; omega
    have hword : (((List.range n).foldl
        (fun acc i => acc.set i (scatterWrite e j i (acc.getD i BitVector.zero))) out).getD n
          BitVector.zero).words.length = SEC_PARAM_64 := by
      rw [pget n, if_neg (by omega)]
      exact h3 n (by omega)
    have hstep := checkedStep e j n ((List.range n).foldl
        (fun acc i => acc.set i (scatterWrite e j i (acc.getD i BitVector.zero))) out)
      hn (h2 n (by omega)) hword hj
    rw [List.foldl_cons, List.foldl_nil]
    simp only [Option.bind_eq_bind, Option.some_bind, bind_pure]
    exact hstep

theorem expand_checked_loop (prg : Meow → Nat → Nat) (sid : List Nat)
    (row8 rows : Nat) (hrow8 : ∀ i, i < rows → i / 8 < row8) :
    ∀ (rs : List BitVector) (k : Nat) (out : List BitVector),
      k + rs.length ≤ SECURITY_PARAMETER →
      out.length = rows →
      (∀ i, i < out.length → (out.getD i BitVector.zero).words.length = SEC_PARAM_64) →
      ((rs.enumFrom k).foldlM
        (fun o p => scatterColChecked (expandRow prg sid row8 p.2) p.1 rows o) out)
      = some ((rs.enumFrom k).foldl
          (fun o p => scatterCol (expandRow prg sid row8 p.2) p.1 rows o) out)
  | [], _k, out, _, _, _ => by simp
  | x :: rsx, k, out, hk, hlen, hwords => by
    rw [List.enumFrom_cons, List.foldlM_cons, List.foldl_cons]
    have hkdiv : k / 64 < SEC_PARAM_64 := by
      have hs64 : SEC_PARAM_64 = 2 := rfl
      have hsp : SECURITY_PARAMETER = 128 := rfl
      simp only [List.length_cons] at hk
      omega
    have hcol : scatterColChecked (expandRow prg sid row8 x) k rows out
        = some (scatterCol (expandRow prg sid row8 x) k rows out) := by
      unfold scatterColChecked scatterCol
      exact scatterColChecked_eq (expandRow prg sid row8 x) k hkdiv rows out
        (by omega) (fun i hi => by rw [expandRow_length]; exact hrow8 i hi) hwords
    rw [hcol]
    simp only [Option.bind_eq_bind, Option.some_bind]
    refine expand_checked_loop prg sid row8 rows hrow8 rsx (k + 1)
      (scatterCol (expandRow prg sid row8 x) k rows out)
      (by simp only [List.length_cons] at hk; omega)
      (by rw [scatterCol_length, hlen])
      (fun i hi => ?_)
    rw [scatterCol_length, hlen] at hi
    rw [scatterCol_getD, if_pos ⟨hi, by rw [hlen]; exact hi⟩]
    show ((out.getD i BitVector.zero).words.set _ _).length = SEC_PARAM_64
    rw [List.length_set]
    exact hwords i (by rw [hlen]; exact hi)

theorem getD_bound_to_mem (l : List Nat) (h : ∀ w, l.getD w 0 < 2 ^ 64) :
    ∀ x ∈ l, x < 2 ^ 64 := by
  intro x hx
  obtain ⟨idx, hidx, hval⟩ := List.mem_iff_getElem.mp hx
  have h2 := h idx
  rw [List.getD_eq_getElem?_getD, List.getElem?_eq_getElem hidx,
    Option.getD_some, hval] at h2
  exact h2

/-! ### Claims -/

/-- C1: the spec claims that `bits()` yields a `Choice` that is false exactly
when the stored bit is 0, so `zero().bits()` should be `SECURITY_PARAMETER`
false values.  The code computes `((u >> j) & 1).ct_eq(&0)`, which is TRUE
exactly when the stored bit is 0: evaluating the code on the all-zero vector
yields `SECURITY_PARAMETER` true values, the complement of what the claim
states (the element count itself is correct). -/
theorem bits_zero_yields_all_true :
    BitVector.zero.bits = List.replicate SECURITY_PARAMETER true := by decide

/-- C2: for a validly constructed square matrix, bit `i` (LSB-first within
each byte) of the pseudorandom expansion of input row `j` lands at bit
position `j` (word `j / 64`, bit `j % 64`) of output row `i`, and every
(word, bit) position not of this form is zero. -/
theorem expand_transpose_bit_placement (prg : Meow → Nat → Nat)
    (s : SquareBitMatrix) (sid : List Nat) (rows : Nat) (hs : s.wf)
    (i j : Nat) (hi : i < rows) (hj : j < SECURITY_PARAMETER) :
    (Nat.testBit
        (((s.expand_transpose prg sid rows).rows.getD i BitVector.zero).words.getD
          (j / 64) 0) (j % 64)
      = decide (expandedBit (expandRow prg sid ((rows + 7) / 8)
          (s.matrix.rows.getD j BitVector.zero)) i = 1)) ∧
    (∀ w p, ¬(p < 64 ∧ 64 * w + p < SECURITY_PARAMETER) →
      Nat.testBit
        (((s.expand_transpose prg sid rows).rows.getD i BitVector.zero).words.getD w 0)
        p = false) := by
  obtain ⟨hlen, hrow⟩ := expand_transpose_master prg s sid rows hs
  obtain ⟨h1, h2, h3⟩ := hrow i hi
  have hsp : SECURITY_PARAMETER = 128 := rfl
  constructor
  · rw [h3 (j / 64) (j % 64) (by omega)]
    refine decide_eq_decide.mpr ?_
    have hkey : 64 * (j / 64) + j % 64 = j := by omega
    rw [hkey]
    constructor
    · intro h
      exact h.2
    · intro h
      exact ⟨hj, h⟩
  · intro w p hnp
    by_cases hp : p < 64
    · rw [h3 w p hp]
      refine decide_eq_false ?_
      rintro ⟨hlt, -⟩
      exact hnp ⟨hp, hlt⟩
    · refine Nat.testBit_lt_two_pow ?_
      calc ((s.expand_transpose prg sid rows).rows.getD i BitVector.zero).words.getD w 0
          < 2 ^ 64 := h2 w
        _ ≤ 2 ^ p := Nat.pow_le_pow_right (by norm_num) (by omega)

theorem expand_transpose_bit_placement_witness :
    Nat.testBit
      ((((SquareBitMatrix.mk (BitMatrix.mk (List.replicate 128 BitVector.zero))).expand_transpose
          (fun _ _ => 0) [] 1).rows.getD 0 BitVector.zero).words.getD (0 / 64) 0) (0 % 64)
      = decide (expandedBit (expandRow (fun _ _ => 0) [] ((1 + 7) / 8)
          ((SquareBitMatrix.mk (BitMatrix.mk (List.replicate 128 BitVector.zero))).matrix.rows.getD
            0 BitVector.zero)) 0 = 1) :=
  (expand_transpose_bit_placement (fun _ _ => 0)
    ⟨⟨List.replicate 128 BitVector.zero⟩⟩ [] 1 (by decide) 0 0 (by decide) (by decide)).1

/-- C3: for a validly constructed square matrix, the output of
`expand_transpose` has height exactly `rows`, and each of its rows is a full
well-formed `BitVector` of exactly `SECURITY_PARAMETER` bits
(`SEC_PARAM_64` words, each below `2 ^ 64`). -/
theorem expand_transpose_shape (prg : Meow → Nat → Nat) (s : SquareBitMatrix)
    (sid : List Nat) (rows : Nat) (hs : s.wf) :
    (s.expand_transpose prg sid rows).height = rows ∧
    ∀ i, i < rows →
      ((s.expand_transpose prg sid rows).rows.getD i BitVector.zero).wf := by
  obtain ⟨hlen, hrow⟩ := expand_transpose_master prg s sid rows hs
  refine ⟨hlen, fun i hi => ?_⟩
  obtain ⟨h1, h2, -⟩ := hrow i hi
  exact ⟨h1, getD_bound_to_mem _ h2⟩

theorem expand_transpose_shape_witness :
    (SquareBitMatrix.expand_transpose (fun _ _ => 0)
      ⟨⟨List.replicate 128 BitVector.zero⟩⟩ [] 1).height = 1 :=
  (expand_transpose_shape (fun _ _ => 0)
    ⟨⟨List.replicate 128 BitVector.zero⟩⟩ [] 1 (by decide)).1

/-- C4: `try_from` succeeds exactly when the input height is
`SECURITY_PARAMETER`, wraps the matrix unchanged on success, and returns the
error (constructing nothing) on any other height. -/
theorem try_from_succeeds_iff_height (m : BitMatrix) :
    (SquareBitMatrix.try_from m = Except.ok ⟨m⟩ ↔ m.height = SECURITY_PARAMETER) ∧
    (m.height ≠ SECURITY_PARAMETER →
      SquareBitMatrix.try_from m = Except.error ()) := by
  unfold SquareBitMatrix.try_from BitMatrix.height
  by_cases h : m.rows.length = SECURITY_PARAMETER
  · simp [h]
  · simp [h]

theorem try_from_succeeds_iff_height_witness :
    SquareBitMatrix.try_from ⟨List.replicate 127 BitVector.zero⟩ = Except.error () ∧
    SquareBitMatrix.try_from ⟨List.replicate 129 BitVector.zero⟩ = Except.error () ∧
    SquareBitMatrix.try_from ⟨List.replicate 128 BitVector.zero⟩ =
      Except.ok ⟨⟨List.replicate 128 BitVector.zero⟩⟩ :=
  ⟨(try_from_succeeds_iff_height ⟨List.replicate 127 BitVector.zero⟩).2 (by decide),
   (try_from_succeeds_iff_height ⟨List.replicate 129 BitVector.zero⟩).2 (by decide),
   (try_from_succeeds_iff_height ⟨List.replicate 128 BitVector.zero⟩).1.mpr (by decide)⟩

/-- C5: `expand_transpose` is deterministic: two runs on identical inputs
(with the PRG a deterministic function of its absorbed state) produce
bit-identical output. -/
theorem expand_transpose_deterministic (prgA prgB : Meow → Nat → Nat)
    (sA sB : SquareBitMatrix) (sidA sidB : List Nat) (rowsA rowsB : Nat)
    (hprg : ∀ m i, prgA m i = prgB m i) (hs : sA = sB) (hsid : sidA = sidB)
    (hrows : rowsA = rowsB) :
    sA.expand_transpose prgA sidA rowsA = sB.expand_transpose prgB sidB rowsB := by
  have hp : prgA = prgB := funext fun m => funext fun i => hprg m i
  rw [hp, hs, hsid, hrows]

theorem expand_transpose_deterministic_witness :
    SquareBitMatrix.expand_transpose (fun _ _ => 0) ⟨⟨[]⟩⟩ [] 3 =
      SquareBitMatrix.expand_transpose (fun _ _ => 0) ⟨⟨[]⟩⟩ [] 3 :=
  expand_transpose_deterministic (fun _ _ => 0) (fun _ _ => 0) ⟨⟨[]⟩⟩ ⟨⟨[]⟩⟩
    [] [] 3 3 (fun _ _ => rfl) rfl rfl rfl

/-- C6: `expand_transpose` is total for a validly constructed
`SquareBitMatrix`: the checked variant, in which every slice index the source
performs is looked up fallibly (a panic surfacing as `none`), always succeeds
and returns exactly the unchecked result. -/
theorem expand_transpose_cannot_fail (prg : Meow → Nat → Nat)
    (s : SquareBitMatrix) (sid : List Nat) (rows : Nat) (hs : s.wf) :
    expand_transpose_checked prg s sid rows
      = some (s.expand_transpose prg sid rows) := by
  unfold expand_transpose_checked SquareBitMatrix.expand_transpose
  rw [show (s.matrix.rows.enum) = s.matrix.rows.enumFrom 0 from rfl,
    expand_checked_loop prg sid ((rows + 7) / 8) rows
      (fun i hi => by omega) s.matrix.rows 0 (List.replicate rows BitVector.zero)
      (by rw [Nat.zero_add, hs.1]) (by simp)
      (fun i hi => by
        rw [getD_replicate, if_pos (by simpa using hi)]
        simp [BitVector.zero])]
  rfl

theorem expand_transpose_cannot_fail_witness :
    expand_transpose_checked (fun _ _ => 0)
      ⟨⟨List.replicate 128 BitVector.zero⟩⟩ [] 2
      = some (SquareBitMatrix.expand_transpose (fun _ _ => 0)
          ⟨⟨List.replicate 128 BitVector.zero⟩⟩ [] 2) :=
  expand_transpose_cannot_fail (fun _ _ => 0)
    ⟨⟨List.replicate 128 BitVector.zero⟩⟩ [] 2 (by decide)

/-- C7: matrix xor on unequal heights raises no error and zips to the shorter
height: the result of `xor` always has the height of the left operand, rows
below `min` of the heights are the row-wise xor, and every remaining row of
the left operand is returned unchanged.  (For `getD` past the left height
both sides degenerate to the default row.) -/
theorem matrix_xor_zips_to_shorter (a b : BitMatrix) (i : Nat) :
    (a.xor b).height = a.height ∧
    (a.xor b).rows.getD i BitVector.zero =
      (if i < min a.height b.height then
        (a.rows.getD i BitVector.zero).xor (b.rows.getD i BitVector.zero)
      else a.rows.getD i BitVector.zero) := by
  constructor
  · exact zipMutWith_length BitVector.xor a.rows b.rows
  · exact zipMutWith_getD BitVector.xor BitVector.zero BitVector.zero
      a.rows b.rows i

/-- C8: for every well-formed bit pattern, serializing the words to
little-endian bytes in word order gives a buffer of exactly `SEC_PARAM_8`
bytes, and decoding it with `from_bytes` reproduces the vector exactly. -/
theorem from_bytes_le_roundtrip (v : BitVector) (h : v.wf) :
    (v.words.flatMap u64ToLeBytes).length = SEC_PARAM_8 ∧
    BitVector.from_bytes (v.words.flatMap u64ToLeBytes) = v := by
  have h2 : v.words.length = 2 := h.1
  obtain ⟨w0, w1, hw⟩ := List.length_eq_two.mp h2
  have hw0 : w0 < 2 ^ 64 := h.2 w0 (by rw [hw]; simp)
  have hw1 : w1 < 2 ^ 64 := h.2 w1 (by rw [hw]; simp)
  constructor
  · rw [hw]
    simp only [List.flatMap_cons, List.flatMap_nil, List.append_nil,
      List.length_append, u64ToLeBytes_length]
    rfl
  · conv_lhs => rw [hw]
    simp only [List.flatMap_cons, List.flatMap_nil, List.append_nil]
    unfold BitVector.from_bytes
    rw [chunksExact_append8 _ _ (u64ToLeBytes_length w0),
      show u64ToLeBytes w1 = u64ToLeBytes w1 ++ [] from (List.append_nil _).symm,
      chunksExact_append8 _ _ (u64ToLeBytes_length w1), chunksExact_empty]
    simp only [List.map_cons, List.map_nil,
      u64FromLeBytes_u64ToLeBytes w0 hw0, u64FromLeBytes_u64ToLeBytes w1 hw1]
    rw [show overwriteFront (List.replicate SEC_PARAM_64 0) [w0, w1] = [w0, w1]
      from rfl, ← hw]

theorem from_bytes_le_roundtrip_witness :
    BitVector.from_bytes ((BitVector.mk [5, 2 ^ 64 - 1]).words.flatMap u64ToLeBytes)
      = BitVector.mk [5, 2 ^ 64 - 1] :=
  (from_bytes_le_roundtrip ⟨[5, 2 ^ 64 - 1]⟩ (by decide)).2

/-- C9: constant-time conditional select on vectors: a false selector returns
the first operand and a true selector returns the second, for all well-formed
vectors. -/
theorem conditional_select_selects (a b : BitVector) (ha : a.wf) (hb : b.wf) :
    BitVector.conditional_select a b false = a ∧
    BitVector.conditional_select a b true = b := by
  constructor
  · unfold BitVector.conditional_select
    rw [selectZip_false _ a.words b.words
      (by rw [List.length_replicate, ha.1]) (by rw [ha.1, hb.1])]
  · unfold BitVector.conditional_select
    rw [selectZip_true _ a.words b.words
      (by rw [List.length_replicate, ha.1]) (by rw [ha.1, hb.1]) ha.2 hb.2]

theorem conditional_select_selects_witness :
    BitVector.conditional_select ⟨[3, 4]⟩ ⟨[7, 9]⟩ false = ⟨[3, 4]⟩ ∧
    BitVector.conditional_select ⟨[3, 4]⟩ ⟨[7, 9]⟩ true = ⟨[7, 9]⟩ :=
  conditional_select_selects ⟨[3, 4]⟩ ⟨[7, 9]⟩ (by decide) (by decide)

/-- C10: no operation of this core ever sets a storage bit at position
`SECURITY_PARAMETER` or above: `zero`, `random`, `from_bytes`, `xor`, `and`,
`conditional_select`, and every row of an `expand_transpose` result all
produce vectors whose packed value has only zeros from bit
`SECURITY_PARAMETER` on. -/
theorem no_extra_high_bits :
    BitVector.zero.noHighBits ∧
    (∀ rng : Nat → Nat, (BitVector.random rng).noHighBits) ∧
    (∀ bytes : List Nat, bytes.length = SEC_PARAM_8 → (∀ x ∈ bytes, x < 256) →
      (BitVector.from_bytes bytes).noHighBits) ∧
    (∀ a b : BitVector, a.wf → b.wf →
      (a.xor b).noHighBits ∧ (a.and b).noHighBits ∧
      ∀ c : Bool, (BitVector.conditional_select a b c).noHighBits) ∧
    (∀ (prg : Meow → Nat → Nat) (s : SquareBitMatrix) (sid : List Nat)
        (rows i : Nat), s.wf → i < rows →
      ((s.expand_transpose prg sid rows).rows.getD i BitVector.zero).noHighBits) := by
  refine ⟨wf_noHighBits _ zero_wf, fun rng => wf_noHighBits _ (random_wf rng),
    fun bytes h1 h2 => wf_noHighBits _ (from_bytes_wf bytes h1 h2),
    fun a b ha hb => ⟨wf_noHighBits _ (xor_wf a b ha hb),
      wf_noHighBits _ (and_wf a b ha hb),
      fun c => wf_noHighBits _ (conditional_select_wf a b c ha hb)⟩,
    fun prg s sid rows i hs hi => ?_⟩
  obtain ⟨hlen, hrow⟩ := expand_transpose_master prg s sid rows hs
  obtain ⟨h1, h2, -⟩ := hrow i hi
  exact wf_noHighBits _ ⟨h1, getD_bound_to_mem _ h2⟩

theorem no_extra_high_bits_witness :
    (BitVector.xor ⟨[3, 4]⟩ ⟨[7, 9]⟩).noHighBits ∧ BitVector.zero.noHighBits :=
  ⟨(no_extra_high_bits.2.2.2.1 ⟨[3, 4]⟩ ⟨[7, 9]⟩ (by decide) (by decide)).1,
   no_extra_high_bits.1⟩
